import Mathlib

/-!
Verification of the issue-board core of `scripts/bd_board.py`: the tree
builder `build_tree` (lines 81-131), the formatting helpers `truncate`,
`get_status_style`, `get_type_short`, `print_issue` (lines 134-176), and the
recursive renderer `render_children` (lines 179-202) together with the
rendering loop of `main` (lines 224-230).

Modelling conventions:
* Python text is modelled as `List Char` (a Python `str` is a sequence of
  code points); ids stay `String` (Lean `String` is logically a `List Char`
  wrapper, and Mathlib's `LinearOrder String` is the same code-point
  lexicographic order Python uses for `str` comparison).
* `dict` maps whose keys are only read with a default (`child_map`,
  `lookup`) are modelled as total functions `String → List _ / Option _`;
  the only observable operations in the source are `get` with default,
  `[]` on present keys, and `in` tests, all of which the function model
  reproduces.  `child_ids_set` is only tested for membership, so a `List`
  suffices.
* `list.sort(key=...)` (line 129) is a stable sort by a total lexicographic
  key whose last component is the id itself, so keys are equal only for
  identical list elements; every sorted permutation is therefore the same
  list and `List.insertionSort` by the key order is a faithful model.
* The unbounded Python recursion of `render_children` is modelled with an
  explicit recursion budget: `render_children fuel … = none` means the
  traversal did not complete within depth `fuel`.  Divergence of the Python
  program on an input corresponds to the model returning `none` for every
  budget.
-/

-- ANSI color constants from `class Colors` (only those reachable from
-- `print_issue` are needed).
namespace Colors

def RESET : List Char := "\x1b[0m".data

def IN_PROGRESS : List Char := "\x1b[38;2;240;198;116m".data

def OPEN : List Char := "\x1b[38;2;129;162;190m".data

def DEFAULT : List Char := "\x1b[38;2;197;200;198m".data

end Colors

/-- An entry of a record's `dependents` list (only its `"id"` key is read,
line 98). -/
structure Dependent where
  id : String
deriving DecidableEq, Repr

/-- An entry of a record's `dependencies` list (keys `"id"` and
`"dependency_type"`, lines 107-108; `dependency_type` is read with `.get`,
hence optional). -/
structure Dependency where
  id : String
  dependency_type : Option String := none
deriving DecidableEq, Repr

/-- An issue record.  Fields read with `.get` and a default in the source
are optional; `id` is always read with `[]` and is mandatory. -/
structure Issue where
  id : String
  status : Option String := none
  priority : Option Int := none
  issue_type : Option String := none
  title : Option (List Char) := none
  dependents : List Dependent := []
  dependencies : List Dependency := []
deriving DecidableEq, Repr

/-- `lookup = {issue["id"]: issue for issue in issues}` (line 86):
last write wins for duplicate ids. -/
def buildLookup (issues : List Issue) : String → Option Issue :=
  issues.foldl (fun lk i => fun k => if k = i.id then some i else lk k) (fun _ => none)

/-- Append one child id to `child_map[p]` (lines 99-101 / 110-113: a missing
key behaves as the empty list). -/
def cmAppend (cm : String → List String) (p c : String) : String → List String :=
  fun k => if k = p then cm p ++ [c] else cm k

/-- One `dependents` entry of the issue with id `pid` in the first pass
(lines 97-102): append the edge unconditionally and record the child id. -/
def pass1Dep (pid : String) (st : (String → List String) × List String)
    (d : Dependent) : (String → List String) × List String :=
  (cmAppend st.1 pid d.id, st.2 ++ [d.id])

/-- All `dependents` entries of one issue in the first pass. -/
def pass1Issue (st : (String → List String) × List String) (issue : Issue) :
    (String → List String) × List String :=
  issue.dependents.foldl (pass1Dep issue.id) st

/-- First pass of `build_tree` (lines 93-102): for every issue, every
`dependents` entry appends an edge, with no deduplication; the running state
is `(child_map, child_ids_set)`. -/
def pass1 (issues : List Issue) : (String → List String) × List String :=
  issues.foldl pass1Issue ((fun _ => []), [])

/-- One `dependencies` entry of issue `cid` in the second pass
(lines 106-114): only `dependency_type == "parent-child"` creates an edge,
and the child is appended only if not already present in the parent's list;
`child_ids_set.add` is unconditional. -/
def pass2Step (cid : String) (st : (String → List String) × List String)
    (d : Dependency) : (String → List String) × List String :=
  if d.dependency_type = some "parent-child" then
    let cm := st.1
    let cm2 := if cid ∈ cm d.id then cm else cmAppend cm d.id cid
    (cm2, st.2 ++ [cid])
  else st

/-- All `dependencies` entries of one issue in the second pass. -/
def pass2Issue (st : (String → List String) × List String) (issue : Issue) :
    (String → List String) × List String :=
  issue.dependencies.foldl (pass2Step issue.id) st

/-- Second pass of `build_tree` (lines 105-114). -/
def pass2 (issues : List Issue) (st : (String → List String) × List String) :
    (String → List String) × List String :=
  issues.foldl pass2Issue st

/-- `sort_key` (lines 124-127): `(0 if epic else 1, priority defaulting
to 2, issue_id)`, compared lexicographically as Python compares tuples.
The `none` branch is unreachable from `build_tree` (every `top_level` id is
a key of `lookup`); Python would raise a `KeyError` there. -/
def sortKey (lk : String → Option Issue) (issue_id : String) :
    Lex (Nat × Lex (Int × String)) :=
  match lk issue_id with
  | some issue =>
      toLex ((if issue.issue_type = some "epic" then 0 else 1),
        toLex (issue.priority.getD 2, issue_id))
  | none => toLex (1, toLex (2, issue_id))

/-- The result of `build_tree` (line 131).  `child_ids` is the internal
`child_ids_set`, exposed for the statements below (Python keeps it local). -/
structure BuildResult where
  top_level : List String
  child_map : String → List String
  lookup : String → Option Issue
  child_ids : List String

/-- `build_tree` (lines 81-131). -/
def build_tree (issues : List Issue) : BuildResult :=
  let lookup := buildLookup issues
  let st := pass2 issues (pass1 issues)
  let child_map := st.1
  let child_ids := st.2
  let tl := (issues.filter (fun i => i.id ∉ child_ids)).map (fun i => i.id)
  let top_level :=
    List.insertionSort (fun a b => sortKey lookup a ≤ sortKey lookup b) tl
  ⟨top_level, child_map, lookup, child_ids⟩

/-- `truncate` (lines 134-138); the call site always uses `max_len = 50`
(the Python default). -/
def truncate (text : List Char) (max_len : Nat) : List Char :=
  if text.length > max_len then text.take (max_len - 1) ++ ['…'] else text

/-- `get_status_style` (lines 141-148): `(color, icon)` per status. -/
def get_status_style (status : String) : List Char × List Char :=
  if status = "in_progress" then (Colors.IN_PROGRESS, "●".data)
  else if status = "open" then (Colors.OPEN, "○".data)
  else (Colors.DEFAULT, "·".data)

/-- `get_type_short` (lines 151-160): the `abbrevs` dict lookup with the
type itself as default. -/
def get_type_short (issue_type : String) : List Char :=
  if issue_type = "feature" then "feat".data
  else if issue_type = "task" then "task".data
  else if issue_type = "bug" then "bug".data
  else if issue_type = "epic" then "epic".data
  else if issue_type = "chore" then "chore".data
  else issue_type.data

/-- Python `f"{issue_id:<10}"`: left-justify to 10 code points, never
truncating. -/
def pad10 (s : String) : List Char :=
  s.data ++ List.replicate (10 - s.length) ' '

/-- Python `str` of an int, as used by `f"p{priority}"`. -/
def intStr (i : Int) : List Char :=
  (toString i).data

/-- `print_issue` (lines 163-176): the full emitted line, color codes
included.  `pre` is the `prefix` parameter. -/
def print_issue (issue : Issue) (pre : List Char) : List Char :=
  let status := issue.status.getD "open"
  let priority := issue.priority.getD 2
  let issue_type := issue.issue_type.getD "task"
  let title := truncate (issue.title.getD []) 50
  let ci := get_status_style status
  let type_short := get_type_short issue_type
  let line := pre ++ ci.2 ++ (' ' :: pad10 issue.id) ++ " [p".data ++
    intStr priority ++ (' ' :: type_short) ++ "] ".data ++ title
  ci.1 ++ line ++ Colors.RESET

/-- Connector for a child (line 196). -/
def glyphCorner : List Char := "└── ".data

/-- Connector for a non-final child (line 196). -/
def glyphTee : List Char := "├── ".data

/-- Continuation segment appended below a final child (line 201). -/
def contBlank : List Char := "    ".data

/-- Continuation segment appended below a non-final child (line 201). -/
def contBar : List Char := "│   ".data

/-- One emitted line of the board, instrumented with the id it was printed
for and the `prefix` argument passed to `print_issue`; `line` is the actual
output text. -/
structure REntry where
  rid : String
  pre : List Char
  line : List Char
deriving DecidableEq, Repr

/-- The body of the loop of `render_children` (lines 191-202) for one
enumerated child `ic = (i, child_id)`: skip ids missing from `lookup`
(lines 192-193), otherwise emit the child's line and recurse via `rc` with
the continuation indent. -/
def renderSeg (rc : String → List Char → Option (List REntry))
    (lk : String → Option Issue) (ind : List Char) (total : Nat)
    (ic : Nat × String) : Option (List REntry) :=
  match lk ic.2 with
  | none => some []
  | some issue =>
    let is_last := ic.1 = total - 1
    let branch := if is_last then glyphCorner else glyphTee
    let next_indent := ind ++ (if is_last then contBlank else contBar)
    match rc ic.2 next_indent with
    | none => none
    | some rest =>
        some (⟨ic.2, ind ++ branch, print_issue issue (ind ++ branch)⟩ :: rest)

/-- Sequence the loop iterations of `render_children` in order,
concatenating their output; a diverging iteration makes the whole loop
diverge. -/
def renderSegs (f : Nat × String → Option (List REntry)) :
    List (Nat × String) → Option (List REntry)
  | [] => some []
  | ic :: rest =>
    match f ic, renderSegs f rest with
    | some seg, some tail => some (seg ++ tail)
    | _, _ => none

/-- `render_children` (lines 179-202) with an explicit recursion budget:
`none` means the traversal did not complete within depth `fuel` (the Python
original recurses unboundedly). -/
def render_children : Nat → (String → List String) → (String → Option Issue) →
    List Char → String → Option (List REntry)
  | 0, _, _, _, _ => none
  | fuel + 1, cm, lk, ind, p =>
    let children := cm p
    renderSegs
      (renderSeg (fun c ind2 => render_children fuel cm lk ind2 c) lk ind
        children.length)
      children.enum

/-- The rendering loop of `main` (lines 224-230): for each top-level id
present in `lookup`, its own line followed by its subtree (the blank
separator lines carry no issue and are not modelled). -/
def renderTops (fuel : Nat) (cm : String → List String)
    (lk : String → Option Issue) : List String → Option (List REntry)
  | [] => some []
  | tid :: rest =>
    match lk tid with
    | none => renderTops fuel cm lk rest
    | some r =>
      match render_children fuel cm lk [] tid, renderTops fuel cm lk rest with
      | some sub, some tail => some (⟨tid, [], print_issue r []⟩ :: (sub ++ tail))
      | _, _ => none

/-- Everything `main` renders for one input batch. -/
def renderBoard (fuel : Nat) (issues : List Issue) : Option (List REntry) :=
  let t := build_tree issues
  renderTops fuel t.child_map t.lookup t.top_level

/-- All ids that can possibly own a `child_map` entry: the first pass only
writes under issue ids (line 94), the second pass only under ids named by a
`dependencies` entry (line 108). -/
def parentsList (issues : List Issue) : List String :=
  issues.map (fun i => i.id) ++ issues.flatMap (fun i => i.dependencies.map (fun d => d.id))

/-- Remove one key from a lookup map (used to state that a record is never
consulted during rendering). -/
def lkErase (lk : String → Option Issue) (c : String) : String → Option Issue :=
  fun k => if k = c then none else lk k

/-- Replace one entry of a child map (used to state that a dangling child's
own entry is never consulted). -/
def cmUpd (cm : String → List String) (c : String) (xs : List String) :
    String → List String :=
  fun k => if k = c then xs else cm k

/-- Left-to-right deduplicating append: keep each candidate only if it is
absent from the accumulated list at its insertion time.  This is the
declarative form of the `dependencies`-source merge policy of §4.1 step 2b
of the spec. -/
def dedupInto (acc : List String) : List String → List String
  | [] => []
  | c :: cs => if c ∈ acc then dedupInto acc cs else c :: dedupInto (acc ++ [c]) cs

/-- The child ids that the `dependencies` entries `deps` of the issue `cid`
declare under parent `p` (each matching entry contributes one copy of
`cid`). -/
def depCands (cid : String) (deps : List Dependency) (p : String) : List String :=
  deps.filterMap (fun d =>
    if d.dependency_type = some "parent-child" ∧ d.id = p then some cid else none)

/-- Declarative per-parent description of the merged child map, following
the spec's words (§4.1): first all `dependents`-declared children of the
records whose id is `p`, in input order and undeduplicated, then the
`parent-child`-typed `dependencies`-declared children naming `p`, in input
order, each kept only if absent at its insertion time. -/
def childMapSpec (issues : List Issue) (p : String) : List String :=
  let base := (issues.filter (fun i => i.id = p)).flatMap
    (fun i => i.dependents.map (fun d => d.id))
  let cands := issues.flatMap (fun i => depCands i.id i.dependencies p)
  base ++ dedupInto base cands

/-- Input batch for C1: a 2-cycle `A ↔ B` reachable from the top-level
issue `T` (`T → A → B → A → …`). -/
def exC1 : List Issue := [
  { id := "T", dependents := [⟨"A"⟩] },
  { id := "A", dependents := [⟨"B"⟩] },
  { id := "B", dependents := [⟨"A"⟩] }
]

/-- Input batch for the C2 counterexample: `P` lists `C` twice in
`dependents`, so the acyclic relation renders `C` twice. -/
def exC2 : List Issue := [
  { id := "P", dependents := [⟨"C"⟩, ⟨"C"⟩] },
  { id := "C" }
]

/-- Input batch for the C2 witness: the spec's own scenario, a one-edge
forest `E1 → T1`. -/
def exW2 : List Issue := [
  { id := "E1", issue_type := some "epic", priority := some 1,
    dependents := [⟨"T1"⟩] },
  { id := "T1", issue_type := some "task", priority := some 2,
    status := some "open", title := some "Fix bug".data }
]

/-- Input batch for C3: the same edge `P → C` declared via both `P`'s
`dependents` and `C`'s `parent-child` `dependencies` entry. -/
def exC3 : List Issue := [
  { id := "P", dependents := [⟨"C"⟩] },
  { id := "C", dependencies := [{ id := "P", dependency_type := some "parent-child" }] }
]

/-- Input batch for C6: the last-listed child `c2` of `P` has no record, so
no rendered child of `P` receives the corner connector. -/
def exC6 : List Issue := [
  { id := "P", dependents := [⟨"c1"⟩, ⟨"c2"⟩] },
  { id := "c1" }
]

/-- Lookup for the C8 witness: only `"A"` has a record. -/
def lkW8 : String → Option Issue :=
  fun k => if k = "A" then some { id := "A" } else none

/-- Child map for the C8 witness: `"A"` has the single (dangling) child
`"B"`. -/
def cmW8 : String → List String :=
  fun k => if k = "A" then ["B"] else []

/-- Input batch for C9: every edge naming `C` as a child comes from a
`dependencies` entry whose parent `X` has no record, yet `C`'s child `D` is
also a child of the rendered top-level issue `E`. -/
def exC9 : List Issue := [
  { id := "C", dependents := [⟨"D"⟩],
    dependencies := [{ id := "X", dependency_type := some "parent-child" }] },
  { id := "D" },
  { id := "E", dependents := [⟨"D"⟩] }
]

/-! Characterization of the two build passes. -/

/-- `cmAppend` read back at an arbitrary key. -/
theorem cmAppend_at (cm : String → List String) (q c k : String) :
    cmAppend cm q c k = if k = q then cm q ++ [c] else cm k := rfl

/-- Folding the `dependents` entries of one issue: the parent's list gains
all the child ids in order, other lists are untouched, and the id set gains
the same ids. -/
theorem pass1Dep_foldl (ds : List Dependent) :
    ∀ (st : (String → List String) × List String) (pid p : String),
      ((ds.foldl (pass1Dep pid) st).1 p
        = if pid = p then st.1 p ++ ds.map (fun d => d.id) else st.1 p) ∧
      (ds.foldl (pass1Dep pid) st).2 = st.2 ++ ds.map (fun d => d.id) := by
  induction ds with
  | nil => intro st pid p; by_cases h : pid = p <;> simp [h]
  | cons d ds ih =>
    intro st pid p
    rw [List.foldl_cons]
    obtain ⟨ih1, ih2⟩ := ih (pass1Dep pid st d) pid p
    refine ⟨?_, ?_⟩
    · rw [ih1]
      by_cases h : pid = p
      · subst h
        simp [pass1Dep, cmAppend]
      · have h2 : ¬ (p = pid) := fun hh => h hh.symm
        simp [h, pass1Dep, cmAppend, h2]
    · rw [ih2]
      simp [pass1Dep]

/-- First pass over a list of issues, from an arbitrary starting state. -/
theorem pass1_foldl (issues : List Issue) :
    ∀ (st : (String → List String) × List String) (p : String),
      ((issues.foldl pass1Issue st).1 p
        = st.1 p ++ (issues.filter (fun i => i.id = p)).flatMap
            (fun i => i.dependents.map (fun d => d.id))) ∧
      (issues.foldl pass1Issue st).2
        = st.2 ++ issues.flatMap (fun i => i.dependents.map (fun d => d.id)) := by
  induction issues with
  | nil => intro st p; simp
  | cons i is ih =>
    intro st p
    rw [List.foldl_cons]
    obtain ⟨ih1, ih2⟩ := ih (pass1Issue st i) p
    obtain ⟨hd1, hd2⟩ := pass1Dep_foldl i.dependents st i.id p
    refine ⟨?_, ?_⟩
    · rw [ih1]
      show (i.dependents.foldl (pass1Dep i.id) st).1 p ++ _ = _
      rw [hd1]
      by_cases h : i.id = p
      · simp [h, List.filter_cons, List.append_assoc]
      · simp [h, List.filter_cons]
    · rw [ih2]
      show (i.dependents.foldl (pass1Dep i.id) st).2 ++ _ = _
      rw [hd2]
      simp [List.append_assoc]

/-- `dedupInto` distributes over an append of candidate lists. -/
theorem dedupInto_append (xs : List String) :
    ∀ (acc ys : List String),
      dedupInto acc (xs ++ ys)
        = dedupInto acc xs ++ dedupInto (acc ++ dedupInto acc xs) ys := by
  induction xs with
  | nil => intro acc ys; simp [dedupInto]
  | cons x xs ih =>
    intro acc ys
    by_cases h : x ∈ acc
    · simp only [List.cons_append, dedupInto, if_pos h, List.append_eq]
      exact ih acc ys
    · simp only [List.cons_append, dedupInto, if_neg h, List.append_eq]
      rw [ih]
      simp [List.append_assoc]

/-- Elements produced by `dedupInto` come from the candidate list. -/
theorem mem_of_mem_dedupInto {a : String} (xs : List String) :
    ∀ (acc : List String), a ∈ dedupInto acc xs → a ∈ xs := by
  induction xs with
  | nil => intro acc h; simp [dedupInto] at h
  | cons x xs ih =>
    intro acc h
    by_cases hx : x ∈ acc
    · simp only [dedupInto, if_pos hx] at h
      exact List.mem_cons_of_mem _ (ih _ h)
    · simp only [dedupInto, if_neg hx, List.mem_cons] at h
      rcases h with h | h
      · simp [h]
      · exact List.mem_cons_of_mem _ (ih _ h)

/-- `dedupInto` never re-adds something already accumulated. -/
theorem not_mem_dedupInto_of_mem {a : String} (xs : List String) :
    ∀ (acc : List String), a ∈ acc → a ∉ dedupInto acc xs := by
  induction xs with
  | nil => intro acc _ h; simp [dedupInto] at h
  | cons x xs ih =>
    intro acc ha h
    by_cases hx : x ∈ acc
    · simp only [dedupInto, if_pos hx] at h
      exact ih _ ha h
    · simp only [dedupInto, if_neg hx, List.mem_cons] at h
      rcases h with h | h
      · exact hx (h ▸ ha)
      · exact ih (acc ++ [x]) (List.mem_append_left _ ha) h

/-- Folding the `dependencies` entries of one issue: the list under parent
`p` grows by the insertion-time-deduplicated candidates naming `p`, and the
id set grows by every `parent-child` candidate, deduplicated or not. -/
theorem pass2Step_foldl (deps : List Dependency) :
    ∀ (st : (String → List String) × List String) (cid p : String),
      ((deps.foldl (pass2Step cid) st).1 p
        = st.1 p ++ dedupInto (st.1 p) (depCands cid deps p)) ∧
      (deps.foldl (pass2Step cid) st).2
        = st.2 ++ deps.filterMap
            (fun d => if d.dependency_type = some "parent-child" then some cid else none) := by
  induction deps with
  | nil => intro st cid p; simp [depCands, dedupInto]
  | cons d ds ih =>
    intro st cid p
    rw [List.foldl_cons]
    obtain ⟨ih1, ih2⟩ := ih (pass2Step cid st d) cid p
    by_cases htyp : d.dependency_type = some "parent-child"
    · have hset : (pass2Step cid st d).2 = st.2 ++ [cid] := by
        by_cases hmem : cid ∈ st.1 d.id <;> simp [pass2Step, htyp, hmem]
      have hfm : (d :: ds).filterMap
            (fun d => if d.dependency_type = some "parent-child" then some cid else none)
          = cid :: ds.filterMap
            (fun d => if d.dependency_type = some "parent-child" then some cid else none) := by
        simp [htyp]
      refine ⟨?_, by rw [ih2, hset, hfm]; simp⟩
      by_cases hid : d.id = p
      · subst hid
        have hcand : depCands cid (d :: ds) d.id = cid :: depCands cid ds d.id := by
          simp [depCands, htyp]
        rw [hcand]
        by_cases hmem : cid ∈ st.1 d.id
        · have hst1 : (pass2Step cid st d).1 d.id = st.1 d.id := by
            simp [pass2Step, htyp, hmem]
          rw [ih1, hst1]
          simp [dedupInto, hmem]
        · have hst1 : (pass2Step cid st d).1 d.id = st.1 d.id ++ [cid] := by
            simp [pass2Step, htyp, hmem, cmAppend]
          rw [ih1, hst1]
          simp [dedupInto, hmem, List.append_assoc]
      · have hcand : depCands cid (d :: ds) p = depCands cid ds p := by
          simp [depCands, htyp, hid]
        have hst1 : (pass2Step cid st d).1 p = st.1 p := by
          have h2 : ¬ (p = d.id) := fun hh => hid hh.symm
          by_cases hmem : cid ∈ st.1 d.id <;>
            simp [pass2Step, htyp, hmem, cmAppend, h2]
        rw [ih1, hst1, hcand]
    · have hst : pass2Step cid st d = st := by simp [pass2Step, htyp]
      rw [hst]
      obtain ⟨j1, j2⟩ := ih st cid p
      have hcand : depCands cid (d :: ds) p = depCands cid ds p := by
        simp [depCands, htyp]
      have hfm : (d :: ds).filterMap
            (fun d => if d.dependency_type = some "parent-child" then some cid else none)
          = ds.filterMap
            (fun d => if d.dependency_type = some "parent-child" then some cid else none) := by
        simp [htyp]
      exact ⟨by rw [j1, hcand], by rw [j2, hfm]⟩

/-- Second pass over a list of issues, from an arbitrary starting state. -/
theorem pass2_foldl (issues : List Issue) :
    ∀ (st : (String → List String) × List String) (p : String),
      ((issues.foldl pass2Issue st).1 p
        = st.1 p ++ dedupInto (st.1 p)
            (issues.flatMap (fun i => depCands i.id i.dependencies p))) ∧
      (issues.foldl pass2Issue st).2
        = st.2 ++ issues.flatMap (fun i => i.dependencies.filterMap
            (fun d => if d.dependency_type = some "parent-child" then some i.id else none)) := by
  induction issues with
  | nil => intro st p; simp [dedupInto]
  | cons i is ih =>
    intro st p
    rw [List.foldl_cons]
    obtain ⟨ih1, ih2⟩ := ih (pass2Issue st i) p
    have hd1 : (pass2Issue st i).1 p
        = st.1 p ++ dedupInto (st.1 p) (depCands i.id i.dependencies p) :=
      (pass2Step_foldl i.dependencies st i.id p).1
    have hd2 : (pass2Issue st i).2
        = st.2 ++ i.dependencies.filterMap
            (fun d => if d.dependency_type = some "parent-child" then some i.id else none) :=
      (pass2Step_foldl i.dependencies st i.id p).2
    refine ⟨?_, by rw [ih2, hd2]; simp [List.append_assoc]⟩
    rw [ih1, hd1, List.flatMap_cons, dedupInto_append]
    simp [List.append_assoc]

/-- The built child map agrees with the declarative spec description. -/
theorem childMap_eq (issues : List Issue) (p : String) :
    (build_tree issues).child_map p = childMapSpec issues p := by
  have h1 : (pass1 issues).1 p
      = (issues.filter (fun i => i.id = p)).flatMap
          (fun i => i.dependents.map (fun d => d.id)) := by
    have h := (pass1_foldl issues ((fun _ => []), []) p).1
    simpa using h
  have h2 : (build_tree issues).child_map p
      = (pass1 issues).1 p ++ dedupInto ((pass1 issues).1 p)
          (issues.flatMap (fun i => depCands i.id i.dependencies p)) :=
    (pass2_foldl issues (pass1 issues) p).1
  rw [h2, h1]
  simp [childMapSpec]

/-- The built `child_ids_set` lists exactly the `dependents`-declared child
ids followed by the `parent-child` `dependencies`-declared ones. -/
theorem child_ids_eq (issues : List Issue) :
    (build_tree issues).child_ids
      = issues.flatMap (fun i => i.dependents.map (fun d => d.id))
        ++ issues.flatMap (fun i => i.dependencies.filterMap
            (fun d => if d.dependency_type = some "parent-child" then some i.id else none)) := by
  have h1 : (pass1 issues).2
      = issues.flatMap (fun i => i.dependents.map (fun d => d.id)) := by
    have h := (pass1_foldl issues ((fun _ => []), []) "").2
    simpa using h
  have h2 : (build_tree issues).child_ids
      = (pass1 issues).2 ++ issues.flatMap (fun i => i.dependencies.filterMap
          (fun d => if d.dependency_type = some "parent-child" then some i.id else none)) :=
    (pass2_foldl issues (pass1 issues) "").2
  rw [h2, h1]

/-- The lookup built by `build_tree` has a record exactly for the input
ids. -/
theorem lookup_isSome_iff (issues : List Issue) (k : String) :
    ((build_tree issues).lookup k).isSome ↔ k ∈ issues.map Issue.id := by
  show ((buildLookup issues) k).isSome ↔ _
  suffices h : ∀ (f : String → Option Issue),
      ((issues.foldl (fun lk i => fun q => if q = i.id then some i else lk q) f) k).isSome
        ↔ (f k).isSome ∨ k ∈ issues.map Issue.id by
    have := h (fun _ => none)
    simpa [buildLookup] using this
  induction issues with
  | nil => intro f; simp
  | cons i is ih =>
    intro f
    rw [List.foldl_cons, ih]
    by_cases hk : k = i.id <;> simp [hk, or_assoc]

/-- A key outside `parentsList` owns no children in the built child map. -/
theorem cm_support (issues : List Issue) (p : String)
    (h : p ∉ parentsList issues) : (build_tree issues).child_map p = [] := by
  rw [childMap_eq]
  have hid : p ∉ issues.map Issue.id := fun hmem =>
    h (List.mem_append_left _ hmem)
  have hbase : (issues.filter (fun i => i.id = p)) = [] := by
    rw [List.filter_eq_nil_iff]
    intro i hi hip
    exact hid (List.mem_map.mpr ⟨i, hi, by simpa using hip⟩)
  have hcands : issues.flatMap (fun i => depCands i.id i.dependencies p) = [] := by
    rw [List.flatMap_eq_nil_iff]
    intro i hi
    rw [show depCands i.id i.dependencies p
        = i.dependencies.filterMap (fun d =>
            if d.dependency_type = some "parent-child" ∧ d.id = p then some i.id else none)
      from rfl]
    rw [List.filterMap_eq_nil_iff]
    intro d hd
    have hdp : d.id ≠ p := by
      intro hdp
      apply h
      refine List.mem_append_right _ ?_
      exact List.mem_flatMap.mpr ⟨i, hi, List.mem_map.mpr ⟨d, hd, hdp⟩⟩
    simp [hdp]
  simp [childMapSpec, hbase, hcands, dedupInto]

/-- Every id occurring in a child list of the built child map is in the
built `child_ids_set`. -/
theorem mem_cm_child_ids (issues : List Issue) (p c : String)
    (h : c ∈ (build_tree issues).child_map p) :
    c ∈ (build_tree issues).child_ids := by
  rw [childMap_eq] at h
  rw [child_ids_eq]
  simp only [childMapSpec, List.mem_append] at h
  rcases h with h | h
  · refine List.mem_append_left _ ?_
    obtain ⟨i, hi, hc⟩ := List.mem_flatMap.mp h
    exact List.mem_flatMap.mpr ⟨i, (List.mem_filter.mp hi).1, hc⟩
  · refine List.mem_append_right _ ?_
    have h2 := mem_of_mem_dedupInto _ _ h
    obtain ⟨i, hi, hc⟩ := List.mem_flatMap.mp h2
    refine List.mem_flatMap.mpr ⟨i, hi, ?_⟩
    obtain ⟨d, hd, hsome⟩ := List.mem_filterMap.mp hc
    by_cases htyp : d.dependency_type = some "parent-child" ∧ d.id = p
    · refine List.mem_filterMap.mpr ⟨d, hd, ?_⟩
      simp only [if_pos htyp] at hsome
      simp [htyp.1, hsome]
    · rw [if_neg htyp] at hsome
      exact absurd hsome (by simp)

/-- C4.  The merge of the two edge sources is exactly as asymmetric as
claimed: for every parent `p` the final list is the undeduplicated
concatenation of all `dependents`-declared children of the records with id
`p` (a repeated entry stays repeated), followed by the `parent-child`-typed
`dependencies`-declared children of `p`, each appended only when absent
from the list at its insertion time; `dependencies` entries of any other
`dependency_type` contribute nothing (they are filtered out of
`depCands`). -/
theorem c4_merge_policy (issues : List Issue) (p : String) :
    (build_tree issues).child_map p = childMapSpec issues p :=
  childMap_eq issues p

/-- C3 counterexample: with the edge `P → C` declared via both `P.dependents`
and a `parent-child` entry of `C.dependencies`, the built `child_map["P"]`
is `["C"]` — the child appears once, not twice as the claim states. -/
theorem c3_cex :
    (∃ P ∈ exC3, P.id = "P" ∧ ⟨"C"⟩ ∈ P.dependents) ∧
    (∃ C ∈ exC3, C.id = "C" ∧
      ({ id := "P", dependency_type := some "parent-child" } : Dependency) ∈ C.dependencies) ∧
    (build_tree exC3).child_map "P" = ["C"] ∧
    ((build_tree exC3).child_map "P").count "C" ≠ 2 := by
  refine ⟨⟨{ id := "P", dependents := [⟨"C"⟩] }, by decide, by decide, by decide⟩,
    ⟨{ id := "C", dependencies := [{ id := "P", dependency_type := some "parent-child" }] },
      by decide, by decide, by decide⟩, by decide, by decide⟩

/-- C3 (amended).  When a child id is already present in `child_map[p]`
after the `dependents` pass, the `dependencies` pass never changes its
number of occurrences: a dually-declared edge yields the child exactly as
many times as the `dependents` source lists it (once in the simplest
scenario), not twice. -/
theorem c3_dual_edge_once (issues : List Issue) (P : Issue) (d : Dependent)
    (hP : P ∈ issues) (hd : d ∈ P.dependents) :
    d.id ∈ (pass1 issues).1 P.id ∧
    ((build_tree issues).child_map P.id).count d.id
      = ((pass1 issues).1 P.id).count d.id := by
  have h1 : (pass1 issues).1 P.id
      = (issues.filter (fun i => i.id = P.id)).flatMap
          (fun i => i.dependents.map (fun dd => dd.id)) := by
    have h := (pass1_foldl issues ((fun _ => []), []) P.id).1
    simpa using h
  have hmem : d.id ∈ (pass1 issues).1 P.id := by
    rw [h1]
    refine List.mem_flatMap.mpr ⟨P, ?_, List.mem_map.mpr ⟨d, hd, rfl⟩⟩
    exact List.mem_filter.mpr ⟨hP, by simp⟩
  refine ⟨hmem, ?_⟩
  have h2 : (build_tree issues).child_map P.id
      = (pass1 issues).1 P.id ++ dedupInto ((pass1 issues).1 P.id)
          (issues.flatMap (fun i => depCands i.id i.dependencies P.id)) :=
    (pass2_foldl issues (pass1 issues) P.id).1
  rw [h2, List.count_append]
  have hzero : (dedupInto ((pass1 issues).1 P.id)
      (issues.flatMap (fun i => depCands i.id i.dependencies P.id))).count d.id = 0 := by
    rw [List.count_eq_zero]
    exact not_mem_dedupInto_of_mem _ _ hmem
  rw [hzero]
  exact Nat.add_zero _

/-- C3 witness: in the dual-declaration scenario `exC3`, the `dependents`
pass lists `C` once and the final map still lists it exactly once. -/
theorem c3_dual_edge_once_witness :
    "C" ∈ (pass1 exC3).1 "P" ∧
    ((build_tree exC3).child_map "P").count "C" = ((pass1 exC3).1 "P").count "C" := by
  have h := c3_dual_edge_once exC3 { id := "P", dependents := [⟨"C"⟩] } ⟨"C"⟩
    (by decide) (by decide)
  exact h

/-- C7.  A title longer than 50 code points is rendered as its first 49
code points followed by the ellipsis glyph — exactly 50 code points; a
title of at most 50 code points is rendered verbatim. -/
theorem c7_truncate (t : List Char) :
    (t.length > 50 → truncate t 50 = t.take 49 ++ ['…'] ∧ (truncate t 50).length = 50) ∧
    (t.length ≤ 50 → truncate t 50 = t) := by
  constructor
  · intro h
    have he : truncate t 50 = t.take 49 ++ ['…'] := by
      simp [truncate, h]
    refine ⟨he, ?_⟩
    rw [he]
    simp [List.length_take]
    omega
  · intro h
    simp [truncate]
    omega

/-- C7 witness: a 51-character title truncates to 50 characters; a short
title is untouched. -/
theorem c7_truncate_witness :
    (truncate (List.replicate 51 'a') 50).length = 50 ∧
    truncate ['h', 'i'] 50 = ['h', 'i'] :=
  ⟨((c7_truncate (List.replicate 51 'a')).1 (by decide)).2,
    (c7_truncate ['h', 'i']).2 (by decide)⟩

/-- C10.  Formatting substitutes fixed defaults for absent fields: a
missing `status` renders exactly like `"open"` (whose style is the hollow
circle), a missing `issue_type` like `"task"`, a missing `priority` like
`2` (rendered `p2`), and a missing `title` like the empty string; none of
these absences can fail, `print_issue` being total. -/
theorem c10_defaults (i : Issue) (pre : List Char) :
    print_issue { i with status := none } pre
      = print_issue { i with status := some "open" } pre ∧
    print_issue { i with issue_type := none } pre
      = print_issue { i with issue_type := some "task" } pre ∧
    print_issue { i with priority := none } pre
      = print_issue { i with priority := some 2 } pre ∧
    print_issue { i with title := none } pre
      = print_issue { i with title := some [] } pre ∧
    (get_status_style "open").2 = "○".data ∧
    get_type_short "task" = "task".data ∧
    intStr 2 = "2".data :=
  ⟨rfl, rfl, rfl, rfl, by decide, by decide, by decide⟩

/-- C5.  `top_level` is totally ordered by the sort key `(0 if epic else 1,
priority defaulting to 2, id)`, compared lexicographically — hence all
epic-typed ids precede all non-epic ids, priorities ascend within each
group, and ties break by ascending id; moreover it is a permutation of the
ids of the non-child issues in input order. -/
theorem c5_top_level_sorted (issues : List Issue) :
    List.Pairwise
      (fun a b => sortKey (build_tree issues).lookup a
        ≤ sortKey (build_tree issues).lookup b)
      (build_tree issues).top_level ∧
    (build_tree issues).top_level.Perm
      ((issues.filter (fun i => i.id ∉ (build_tree issues).child_ids)).map
        (fun i => i.id)) := by
  constructor
  · haveI htot : IsTotal String
        (fun a b => sortKey (build_tree issues).lookup a
          ≤ sortKey (build_tree issues).lookup b) :=
      ⟨fun a b => le_total _ _⟩
    haveI htrans : IsTrans String
        (fun a b => sortKey (build_tree issues).lookup a
          ≤ sortKey (build_tree issues).lookup b) :=
      ⟨fun _ _ _ h1 h2 => le_trans h1 h2⟩
    exact List.sorted_insertionSort _ _
  · exact List.perm_insertionSort _ _

/-- Unfolding of `render_children` at positive budget. -/
theorem render_children_succ (fuel : Nat) (cm : String → List String)
    (lk : String → Option Issue) (ind : List Char) (p : String) :
    render_children (fuel + 1) cm lk ind p
      = renderSegs
          (renderSeg (fun c ind2 => render_children fuel cm lk ind2 c) lk ind
            (cm p).length)
          (cm p).enum := rfl

/-- On the cyclic batch `exC1`, the traversal of either cycle member
exhausts every recursion budget. -/
theorem c1_key : ∀ f,
    (∀ ind, render_children f (build_tree exC1).child_map (build_tree exC1).lookup ind "A" = none) ∧
    (∀ ind, render_children f (build_tree exC1).child_map (build_tree exC1).lookup ind "B" = none) := by
  intro f
  induction f with
  | zero => exact ⟨fun _ => rfl, fun _ => rfl⟩
  | succ g ih =>
    have hA : (build_tree exC1).child_map "A" = ["B"] := by decide
    have hB : (build_tree exC1).child_map "B" = ["A"] := by decide
    constructor
    · intro ind
      rw [render_children_succ, hA]
      cases hlkB : (build_tree exC1).lookup "B" with
      | none => exact absurd hlkB (by decide)
      | some r =>
        simp [renderSegs, renderSeg, hlkB, ih.2]
    · intro ind
      rw [render_children_succ, hB]
      cases hlkA : (build_tree exC1).lookup "A" with
      | none => exact absurd hlkA (by decide)
      | some r =>
        simp [renderSegs, renderSeg, hlkA, ih.1]

/-- C1 (code bug).  `render_children` has no recursion guard: on the batch
`exC1`, whose merged relation has the cycle `A → B → A` reachable from the
top-level id `T`, rendering the board fails to complete within every
recursion budget — the model of an infinite recursion.  This refutes the
claim that the implementation guards against infinite recursion and
completes in bounded time on cyclic inputs. -/
theorem c1_cycle_diverges : ∀ fuel, renderBoard fuel exC1 = none := by
  intro fuel
  have htop : (build_tree exC1).top_level = ["T"] := by decide
  show renderTops fuel (build_tree exC1).child_map (build_tree exC1).lookup
    (build_tree exC1).top_level = none
  rw [htop]
  cases hlkT : (build_tree exC1).lookup "T" with
  | none => exact absurd hlkT (by decide)
  | some r =>
    cases fuel with
    | zero => simp [renderTops, hlkT, render_children]
    | succ g =>
      have hT : (build_tree exC1).child_map "T" = ["A"] := by decide
      have hrc : render_children (g + 1) (build_tree exC1).child_map
          (build_tree exC1).lookup [] "T" = none := by
        rw [render_children_succ, hT]
        cases hlkA : (build_tree exC1).lookup "A" with
        | none => exact absurd hlkA (by decide)
        | some r2 =>
          simp [renderSegs, renderSeg, hlkA, (c1_key g).1]
      simp [renderTops, hlkT, hrc]

/-- Every entry of a sequenced loop output comes from one iteration. -/
theorem mem_renderSegs {f : Nat × String → Option (List REntry)}
    {l : List (Nat × String)} {sub : List REntry}
    (h : renderSegs f l = some sub) :
    ∀ e ∈ sub, ∃ ic ∈ l, ∃ seg, f ic = some seg ∧ e ∈ seg := by
  induction l generalizing sub with
  | nil =>
    intro e he
    simp [renderSegs] at h
    subst h
    simp at he
  | cons ic rest ih =>
    intro e he
    simp only [renderSegs] at h
    cases hf : f ic with
    | none => rw [hf] at h; simp at h
    | some seg =>
      cases hr : renderSegs f rest with
      | none => rw [hf, hr] at h; simp at h
      | some tail =>
        rw [hf, hr] at h
        simp only [Option.some.injEq] at h
        subst h
        rcases List.mem_append.mp he with he | he
        · exact ⟨ic, List.mem_cons_self _ _, seg, hf, he⟩
        · obtain ⟨ic2, hic2, seg2, hf2, he2⟩ := ih hr e he
          exact ⟨ic2, List.mem_cons_of_mem _ hic2, seg2, hf2, he2⟩

/-- If the sequenced loop completed, every iteration completed. -/
theorem renderSegs_mem_some {f : Nat × String → Option (List REntry)}
    {l : List (Nat × String)} {sub : List REntry}
    (h : renderSegs f l = some sub) :
    ∀ ic ∈ l, ∃ seg, f ic = some seg := by
  induction l generalizing sub with
  | nil => intro ic hic; simp at hic
  | cons ic0 rest ih =>
    intro ic hic
    simp only [renderSegs] at h
    cases hf : f ic0 with
    | none => rw [hf] at h; simp at h
    | some seg =>
      cases hr : renderSegs f rest with
      | none => rw [hf, hr] at h; simp at h
      | some tail =>
        rcases List.mem_cons.mp hic with hic | hic
        · exact ⟨seg, hic ▸ hf⟩
        · exact ih hr ic hic

/-- A completed iteration's output is an infix of the loop's output. -/
theorem renderSegs_infix {f : Nat × String → Option (List REntry)}
    {l : List (Nat × String)} {sub : List REntry}
    (h : renderSegs f l = some sub) :
    ∀ ic ∈ l, ∀ seg, f ic = some seg → seg.IsInfix sub := by
  induction l generalizing sub with
  | nil => intro ic hic; simp at hic
  | cons ic0 rest ih =>
    intro ic hic seg hseg
    simp only [renderSegs] at h
    cases hf : f ic0 with
    | none => rw [hf] at h; simp at h
    | some seg0 =>
      cases hr : renderSegs f rest with
      | none => rw [hf, hr] at h; simp at h
      | some tail =>
        rw [hf, hr] at h
        simp only [Option.some.injEq] at h
        subst h
        rcases List.mem_cons.mp hic with hic | hic
        · subst hic
          rw [hf] at hseg
          simp only [Option.some.injEq] at hseg
          subst hseg
          exact ⟨[], tail, by simp⟩
        · have hinf := ih hr ic hic seg hseg
          exact hinf.trans ⟨seg0, [], by simp⟩

/-- The sequenced loop only depends on the iteration function pointwise. -/
theorem renderSegs_congr {f g : Nat × String → Option (List REntry)}
    {l : List (Nat × String)} (h : ∀ ic ∈ l, f ic = g ic) :
    renderSegs f l = renderSegs g l := by
  induction l with
  | nil => rfl
  | cons ic rest ih =>
    simp only [renderSegs]
    rw [h ic (List.mem_cons_self _ _), ih (fun x hx => h x (List.mem_cons_of_mem _ hx))]

/-- Every rendered entry is printed for an id that has a record in `lookup`
and occurs as a child in the child map. -/
theorem render_children_emits : ∀ (fuel : Nat) {cm : String → List String}
    {lk : String → Option Issue} {ind : List Char} {p : String}
    {sub : List REntry}, render_children fuel cm lk ind p = some sub →
    ∀ e ∈ sub, (lk e.rid).isSome ∧ ∃ q, e.rid ∈ cm q := by
  intro fuel
  induction fuel with
  | zero => intro cm lk ind p sub h; exact absurd h (by simp [render_children])
  | succ g ih =>
    intro cm lk ind p sub h e he
    rw [render_children_succ] at h
    obtain ⟨ic, hic, seg, hseg, hmem⟩ := mem_renderSegs h e he
    have hsnd : ic.2 ∈ cm p := by
      have h2 : ic.2 ∈ (cm p).enum.map Prod.snd := List.mem_map_of_mem _ hic
      rwa [List.enum_map_snd] at h2
    simp only [renderSeg] at hseg
    cases hlk : lk ic.2 with
    | none =>
      rw [hlk] at hseg
      simp only [Option.some.injEq] at hseg
      subst hseg
      simp at hmem
    | some issue =>
      rw [hlk] at hseg
      cases hrc : render_children g cm lk
          (ind ++ (if ic.1 = (cm p).length - 1 then contBlank else contBar)) ic.2 with
      | none => rw [hrc] at hseg; simp at hseg
      | some rest =>
        rw [hrc] at hseg
        simp only [Option.some.injEq] at hseg
        subst hseg
        rcases List.mem_cons.mp hmem with hmem | hmem
        · subst hmem
          exact ⟨by simp [hlk], ⟨p, hsnd⟩⟩
        · exact ih hrc e hmem

/-- C8.  A child id absent from `lookup` is fully pruned: rendering never
consults its `child_map` entry (replacing that entry changes nothing when
rendering starts from any id that has a record), and no rendered entry is
printed for it — the traversal completes with the branch silently skipped,
never failing. -/
theorem c8_dangling_pruned (cm : String → List String)
    (lk : String → Option Issue) (c : String) (h1 : lk c = none) :
    (∀ fuel ind p xs, (lk p).isSome →
      render_children fuel (cmUpd cm c xs) lk ind p = render_children fuel cm lk ind p) ∧
    (∀ fuel ind p sub, render_children fuel cm lk ind p = some sub →
      ∀ e ∈ sub, e.rid ≠ c) := by
  constructor
  · intro fuel
    induction fuel with
    | zero => intro ind p xs _; rfl
    | succ g ih =>
      intro ind p xs hp
      have hpc : p ≠ c := by
        intro hpc
        rw [hpc, h1] at hp
        simp at hp
      rw [render_children_succ, render_children_succ]
      have hcm : cmUpd cm c xs p = cm p := by simp [cmUpd, hpc]
      rw [hcm]
      refine renderSegs_congr ?_
      intro ic hic
      simp only [renderSeg]
      cases hlk : lk ic.2 with
      | none => rfl
      | some issue =>
        have hics : (lk ic.2).isSome := by simp [hlk]
        rw [ih _ ic.2 xs hics]
  · intro fuel ind p sub h e he hec
    have := (render_children_emits fuel h e he).1
    rw [hec, h1] at this
    simp at this

/-- C8 witness: with `cmW8`/`lkW8` (single parent `A` with dangling child
`B`), replacing `B`'s child-map entry leaves the output unchanged, the
traversal completes with empty output, and no entry is printed for `B`. -/
theorem c8_dangling_pruned_witness :
    lkW8 "B" = none ∧
    render_children 5 (cmUpd cmW8 "B" ["Z"]) lkW8 [] "A"
      = render_children 5 cmW8 lkW8 [] "A" ∧
    (∀ e ∈ ([] : List REntry), e.rid ≠ "B") := by
  have h := c8_dangling_pruned cmW8 lkW8 "B" (by decide)
  exact ⟨by decide, h.1 5 [] "A" ["Z"] (by decide), h.2 5 [] "A" [] (by decide)⟩

/-- `top_level` is a permutation of the non-child ids in input order. -/
theorem top_level_perm (issues : List Issue) :
    (build_tree issues).top_level.Perm
      ((issues.filter (fun i => i.id ∉ (build_tree issues).child_ids)).map
        (fun i => i.id)) :=
  List.perm_insertionSort _ _

/-- Membership in `top_level`: ids of input records that were never
discovered as children. -/
theorem mem_top_level_iff (issues : List Issue) (t : String) :
    t ∈ (build_tree issues).top_level
      ↔ t ∈ issues.map Issue.id ∧ t ∉ (build_tree issues).child_ids := by
  rw [(top_level_perm issues).mem_iff]
  constructor
  · intro h
    obtain ⟨i, hi, hit⟩ := List.mem_map.mp h
    have hf := List.mem_filter.mp hi
    refine ⟨List.mem_map.mpr ⟨i, hf.1, hit⟩, ?_⟩
    have := hf.2
    simp only [decide_not, Bool.not_eq_true', decide_eq_false_iff_not] at this
    exact hit ▸ this
  · intro ⟨h1, h2⟩
    obtain ⟨i, hi, hit⟩ := List.mem_map.mp h1
    refine List.mem_map.mpr ⟨i, List.mem_filter.mpr ⟨hi, ?_⟩, hit⟩
    simp only [decide_not, Bool.not_eq_true', decide_eq_false_iff_not]
    exact hit ▸ h2

/-- C9 (amended).  If every `child_map` occurrence of `C` sits under a
parent with no record in `lookup`, and `C` was discovered as a child, then
`C` is excluded from `top_level` and the board rendering never consults
`C`'s record: erasing `C` from `lookup` leaves the entire output unchanged,
so no line is printed for `C` itself.  (A descendant of `C` may still be
rendered when reachable through another parent that has a record — see the
counterexample.) -/
theorem c9_silent_omission (issues : List Issue) (C : String)
    (hmem : C ∈ (build_tree issues).child_ids)
    (hpar : ∀ p ∈ parentsList issues, C ∈ (build_tree issues).child_map p →
      (build_tree issues).lookup p = none) :
    C ∉ (build_tree issues).top_level ∧
    ∀ fuel, renderTops fuel (build_tree issues).child_map
        (lkErase (build_tree issues).lookup C) (build_tree issues).top_level
      = renderBoard fuel issues := by
  have hparfull : ∀ p, C ∈ (build_tree issues).child_map p →
      (build_tree issues).lookup p = none := by
    intro p hp
    by_cases hpl : p ∈ parentsList issues
    · exact hpar p hpl hp
    · rw [cm_support issues p hpl] at hp
      simp at hp
  have hCtop : C ∉ (build_tree issues).top_level := by
    intro hC
    exact ((mem_top_level_iff issues C).mp hC).2 hmem
  have hinv : ∀ fuel ind p, ((build_tree issues).lookup p).isSome →
      render_children fuel (build_tree issues).child_map
          (lkErase (build_tree issues).lookup C) ind p
        = render_children fuel (build_tree issues).child_map
            (build_tree issues).lookup ind p := by
    intro fuel
    induction fuel with
    | zero => intro ind p _; rfl
    | succ g ih =>
      intro ind p hp
      rw [render_children_succ, render_children_succ]
      refine renderSegs_congr ?_
      intro ic hic
      have hsnd : ic.2 ∈ (build_tree issues).child_map p := by
        have h2 : ic.2 ∈ ((build_tree issues).child_map p).enum.map Prod.snd :=
          List.mem_map_of_mem _ hic
        rwa [List.enum_map_snd] at h2
      have hne : ic.2 ≠ C := by
        intro h
        rw [h] at hsnd
        rw [hparfull p hsnd] at hp
        simp at hp
      simp only [renderSeg]
      have hlkE : lkErase (build_tree issues).lookup C ic.2
          = (build_tree issues).lookup ic.2 := by simp [lkErase, hne]
      rw [hlkE]
      cases hlk : (build_tree issues).lookup ic.2 with
      | none => rfl
      | some issue => rw [ih _ ic.2 (by simp [hlk])]
  refine ⟨hCtop, ?_⟩
  intro fuel
  show _ = renderTops fuel (build_tree issues).child_map (build_tree issues).lookup
    (build_tree issues).top_level
  have htops : ∀ (ts : List String),
      (∀ t ∈ ts, ((build_tree issues).lookup t).isSome ∧ t ≠ C) →
      renderTops fuel (build_tree issues).child_map
          (lkErase (build_tree issues).lookup C) ts
        = renderTops fuel (build_tree issues).child_map
            (build_tree issues).lookup ts := by
    intro ts
    induction ts with
    | nil => intro _; rfl
    | cons t rest ih =>
      intro h
      have ht := h t (List.mem_cons_self _ _)
      simp only [renderTops]
      have hlkE : lkErase (build_tree issues).lookup C t
          = (build_tree issues).lookup t := by simp [lkErase, ht.2]
      rw [hlkE]
      cases hlk : (build_tree issues).lookup t with
      | none => exact ih (fun x hx => h x (List.mem_cons_of_mem _ hx))
      | some r =>
        rw [hinv fuel [] t (by simp [hlk]),
          ih (fun x hx => h x (List.mem_cons_of_mem _ hx))]
  refine htops _ ?_
  intro t ht
  have hmt := (mem_top_level_iff issues t).mp ht
  refine ⟨(lookup_isSome_iff issues t).mpr hmt.1, ?_⟩
  intro htC
  exact hmt.2 (htC ▸ hmem)

/-- C9 witness: on `exC9`, `C` satisfies the dangling-parents hypothesis,
is excluded from `top_level`, and erasing its record leaves the board
output unchanged. -/
theorem c9_silent_omission_witness :
    "C" ∉ (build_tree exC9).top_level ∧
    renderTops 5 (build_tree exC9).child_map
        (lkErase (build_tree exC9).lookup "C") (build_tree exC9).top_level
      = renderBoard 5 exC9 := by
  have h := c9_silent_omission exC9 "C" (by decide) (by decide)
  exact ⟨h.1, h.2 5⟩

/-- C9 counterexample: on `exC9` the hypothesis of the claim holds for `C`
(its only incoming edge is from the recordless parent `X`), `D` is a
descendant of `C` (`D ∈ child_map "C"`) with a record, and yet the board
emits exactly one line for `D` — refuting "no line is emitted for C or any
of its descendants". -/
theorem c9_cex :
    (∀ p ∈ parentsList exC9, "C" ∈ (build_tree exC9).child_map p →
      (build_tree exC9).lookup p = none) ∧
    "C" ∈ (build_tree exC9).child_ids ∧
    "D" ∈ (build_tree exC9).child_map "C" ∧
    ((build_tree exC9).lookup "D").isSome ∧
    (renderBoard 5 exC9).map (fun l => l.countP (fun e => e.rid = "D")) = some 1 := by
  decide

/-- Every rendered entry's prefix extends the ambient indent by at least
one 4-glyph segment. -/
theorem render_children_pre : ∀ (fuel : Nat) {cm : String → List String}
    {lk : String → Option Issue} {ind : List Char} {p : String}
    {sub : List REntry}, render_children fuel cm lk ind p = some sub →
    ∀ e ∈ sub, ∃ tail, e.pre = ind ++ tail ∧ 4 ≤ tail.length := by
  intro fuel
  induction fuel with
  | zero => intro cm lk ind p sub h; exact absurd h (by simp [render_children])
  | succ g ih =>
    intro cm lk ind p sub h e he
    rw [render_children_succ] at h
    obtain ⟨ic, hic, seg, hseg, hmem⟩ := mem_renderSegs h e he
    simp only [renderSeg] at hseg
    cases hlk : lk ic.2 with
    | none =>
      rw [hlk] at hseg
      simp only [Option.some.injEq] at hseg
      subst hseg
      simp at hmem
    | some issue =>
      rw [hlk] at hseg
      cases hrc : render_children g cm lk
          (ind ++ (if ic.1 = (cm p).length - 1 then contBlank else contBar)) ic.2 with
      | none => rw [hrc] at hseg; simp at hseg
      | some rest =>
        rw [hrc] at hseg
        simp only [Option.some.injEq] at hseg
        subst hseg
        rcases List.mem_cons.mp hmem with hmem | hmem
        · subst hmem
          refine ⟨(if ic.1 = (cm p).length - 1 then glyphCorner else glyphTee), rfl, ?_⟩
          by_cases hl : ic.1 = (cm p).length - 1 <;> simp [hl, glyphCorner, glyphTee]
        · obtain ⟨tail2, hpre, hlen⟩ := ih hrc e hmem
          refine ⟨(if ic.1 = (cm p).length - 1 then contBlank else contBar) ++ tail2, ?_, ?_⟩
          · rw [hpre, List.append_assoc]
          · rw [List.length_append]
            omega

/-- Counting rendered entries level by level: if every iteration's count is
known, the loop's count is their sum. -/
theorem renderSegs_countP {f : Nat × String → Option (List REntry)}
    (q : REntry → Bool) (cnt : Nat × String → Nat) :
    ∀ (l : List (Nat × String)) (sub : List REntry), renderSegs f l = some sub →
    (∀ ic ∈ l, ∀ seg, f ic = some seg → seg.countP q = cnt ic) →
    sub.countP q = (l.map cnt).sum := by
  intro l
  induction l with
  | nil =>
    intro sub h _
    simp [renderSegs] at h
    subst h
    simp
  | cons ic rest ih =>
    intro sub h hcnt
    simp only [renderSegs] at h
    cases hf : f ic with
    | none => rw [hf] at h; simp at h
    | some seg =>
      cases hr : renderSegs f rest with
      | none => rw [hf, hr] at h; simp at h
      | some tail =>
        rw [hf, hr] at h
        simp only [Option.some.injEq] at h
        subst h
        rw [List.countP_append, hcnt ic (List.mem_cons_self _ _) seg hf,
          ih tail hr (fun x hx => hcnt x (List.mem_cons_of_mem _ hx))]
        simp

/-- No entry of `enumFrom s` carries an index below `s`. -/
theorem countP_enumFrom_gt (Q : String → Bool) (j : Nat) :
    ∀ (cs : List String) (s : Nat), j < s →
      (List.enumFrom s cs).countP (fun ic => decide (ic.1 = j) && Q ic.2) = 0 := by
  intro cs
  induction cs with
  | nil => intro s _; simp
  | cons c cs ih =>
    intro s hs
    simp only [List.enumFrom]
    rw [List.countP_cons]
    have hsj : ¬ (s = j) := by omega
    simp [hsj, ih (s + 1) (by omega)]

/-- Counting the entries of `enumFrom s` at one fixed index. -/
theorem countP_enumFrom_idx (Q : String → Bool) (j : Nat) :
    ∀ (cs : List String) (s : Nat), s ≤ j →
      (List.enumFrom s cs).countP (fun ic => decide (ic.1 = j) && Q ic.2)
        = (cs.get? (j - s)).elim 0 (fun c => if Q c then 1 else 0) := by
  intro cs
  induction cs with
  | nil => intro s _; simp
  | cons c cs ih =>
    intro s hs
    simp only [List.enumFrom]
    rw [List.countP_cons]
    by_cases hsj : s = j
    · subst hsj
      have h0 : s - s = 0 := by omega
      rw [h0]
      rw [countP_enumFrom_gt Q s cs (s + 1) (by omega)]
      simp
    · have hlt : s < j := by omega
      have hstep : j - s = (j - (s + 1)) + 1 := by omega
      rw [hstep]
      rw [List.get?_cons_succ]
      rw [ih (s + 1) (by omega)]
      simp [hsj]

/-- Summing an indicator function over a list counts the hits. -/
theorem sum_map_indicatorB {α : Type} (q : α → Bool) (l : List α) :
    (l.map (fun x => if q x then 1 else 0)).sum = l.countP q := by
  induction l with
  | nil => simp
  | cons a l ih =>
    rw [List.map_cons, List.sum_cons, List.countP_cons, ih]
    cases hq : q a <;> simp [hq, Nat.add_comm]

/-- C6 (amended).  The connector is decided by the child's position in the
parent's list: every rendered child's own entry carries the corner
connector iff its index is the final index, the tee connector otherwise;
the number of entries carrying `indent ++ corner` is exactly one when the
final-listed child has a record in `lookup` and zero otherwise (so when the
last-listed child is dangling, no rendered child receives the corner); and
the continuation indent passed below the final child appends exactly four
blanks, which contain no vertical bar. -/
theorem c6_amended (cm : String → List String) (lk : String → Option Issue)
    (ind : List Char) (p : String) (fuel : Nat) (sub : List REntry)
    (hsub : render_children (fuel + 1) cm lk ind p = some sub) :
    (∀ i (hi : i < (cm p).length) r, lk ((cm p).get ⟨i, hi⟩) = some r →
      (⟨(cm p).get ⟨i, hi⟩,
        ind ++ (if i = (cm p).length - 1 then glyphCorner else glyphTee),
        print_issue r
          (ind ++ (if i = (cm p).length - 1 then glyphCorner else glyphTee))⟩ : REntry)
        ∈ sub) ∧
    (sub.countP (fun e => decide (e.pre = ind ++ glyphCorner))
      = if (((cm p).get? ((cm p).length - 1)).bind lk).isSome then 1 else 0) ∧
    (∀ c r, (cm p).get? ((cm p).length - 1) = some c → lk c = some r →
      ∃ rest, render_children fuel cm lk (ind ++ contBlank) c = some rest ∧
        rest.Sublist sub) ∧
    ('│' ∉ contBlank ∧ contBlank = [' ', ' ', ' ', ' ']) := by
  rw [render_children_succ] at hsub
  refine ⟨?_, ?_, ?_, by decide⟩
  · -- each rendered child's own entry, with the index-determined connector
    intro i hi r hr
    have hmem_enum : (i, (cm p).get ⟨i, hi⟩) ∈ (cm p).enum :=
      List.mk_mem_enum_iff_get?.mpr (List.get?_eq_get hi)
    obtain ⟨seg, hseg⟩ := renderSegs_mem_some hsub _ hmem_enum
    have hinf := renderSegs_infix hsub _ hmem_enum seg hseg
    simp only [renderSeg] at hseg
    rw [hr] at hseg
    cases hrc : render_children fuel cm lk
        (ind ++ (if i = (cm p).length - 1 then contBlank else contBar))
        ((cm p).get ⟨i, hi⟩) with
    | none => rw [hrc] at hseg; simp at hseg
    | some rest =>
      rw [hrc] at hseg
      simp only [Option.some.injEq] at hseg
      subst hseg
      exact hinf.subset (List.mem_cons_self _ _)
  · -- exactly the last listed child, when rendered, carries the corner
    have hcount := renderSegs_countP (f := renderSeg
        (fun c ind2 => render_children fuel cm lk ind2 c) lk ind (cm p).length)
      (fun e => decide (e.pre = ind ++ glyphCorner))
      (fun ic => if decide (ic.1 = (cm p).length - 1) && (lk ic.2).isSome then 1 else 0)
      ((cm p).enum) sub hsub ?_
    · rw [hcount,
        sum_map_indicatorB
          (fun ic : Nat × String => decide (ic.1 = (cm p).length - 1) && (lk ic.2).isSome)
          ((cm p).enum)]
      show (List.enumFrom 0 (cm p)).countP _ = _
      rw [countP_enumFrom_idx (fun c => (lk c).isSome) ((cm p).length - 1) (cm p) 0
        (by omega)]
      have h0 : (cm p).length - 1 - 0 = (cm p).length - 1 := by omega
      rw [h0]
      cases hq : (cm p).get? ((cm p).length - 1) with
      | none => simp
      | some c =>
        cases hlk : lk c with
        | none => simp [hlk]
        | some r => simp [hlk]
    · -- the per-iteration corner count
      intro ic hic seg hseg
      simp only [renderSeg] at hseg
      cases hlk : lk ic.2 with
      | none =>
        rw [hlk] at hseg
        simp only [Option.some.injEq] at hseg
        subst hseg
        simp [hlk]
      | some issue =>
        rw [hlk] at hseg
        cases hrc : render_children fuel cm lk
            (ind ++ (if ic.1 = (cm p).length - 1 then contBlank else contBar)) ic.2 with
        | none => rw [hrc] at hseg; simp at hseg
        | some rest =>
          rw [hrc] at hseg
          simp only [Option.some.injEq] at hseg
          subst hseg
          have hrest : rest.countP (fun e => decide (e.pre = ind ++ glyphCorner)) = 0 := by
            rw [List.countP_eq_zero]
            intro e he
            obtain ⟨tail, hpre, hlen⟩ := render_children_pre fuel hrc e he
            simp only [decide_eq_true_eq]
            intro habs
            rw [hpre] at habs
            have hlenEq := congrArg List.length habs
            rw [List.append_assoc] at hlenEq
            simp only [List.length_append] at hlenEq
            have hc : (if ic.1 = (cm p).length - 1 then contBlank else contBar).length = 4 := by
              by_cases hl : ic.1 = (cm p).length - 1 <;> simp [hl, contBlank, contBar]
            have hg : glyphCorner.length = 4 := by decide
            omega
          by_cases hl : ic.1 = (cm p).length - 1
          · rw [if_pos hl, List.countP_cons, hrest]
            simp [hl, hlk]
          · rw [if_neg hl, List.countP_cons, hrest]
            have hf : decide (((⟨ic.2, ind ++ glyphTee,
                print_issue issue (ind ++ glyphTee)⟩ : REntry).pre = ind ++ glyphCorner))
                = false := by
              simp only [decide_eq_false_iff_not]
              intro habs
              exact absurd (List.append_cancel_left habs) (by decide)
            rw [hf]
            simp [hl]
  · -- the last child's own continuation indent appends four blanks
    intro c r hgc hlkc
    have hmem_enum : ((cm p).length - 1, c) ∈ (cm p).enum :=
      List.mk_mem_enum_iff_get?.mpr hgc
    obtain ⟨seg, hseg⟩ := renderSegs_mem_some hsub _ hmem_enum
    have hinf := renderSegs_infix hsub _ hmem_enum seg hseg
    simp only [renderSeg] at hseg
    rw [hlkc] at hseg
    simp only [if_true, eq_self_iff_true] at hseg
    cases hrc : render_children fuel cm lk (ind ++ contBlank) c with
    | none => rw [hrc] at hseg; simp at hseg
    | some rest =>
      rw [hrc] at hseg
      simp only [Option.some.injEq] at hseg
      subst hseg
      refine ⟨rest, rfl, ?_⟩
      have hsuf : rest.Sublist (⟨c, ind ++ glyphCorner,
          print_issue r (ind ++ glyphCorner)⟩ :: rest) := List.sublist_cons_self _ _
      exact hsuf.trans hinf.sublist

/-- C6 counterexample: in `exC6` the parent `P` has `N = 2` children but
its last-listed child `c2` has no record, so the board renders `c1` (one
entry) and no entry at all carries the corner connector — refuting
"exactly one child is rendered with the corner connector". -/
theorem c6_cex :
    ((build_tree exC6).child_map "P").length = 2 ∧
    ((build_tree exC6).lookup "c1").isSome ∧
    (build_tree exC6).lookup "c2" = none ∧
    (renderBoard 5 exC6).map
      (fun l => l.countP (fun e => decide (e.pre = glyphCorner))) = some 0 ∧
    (renderBoard 5 exC6).map (fun l => l.countP (fun e => e.rid = "c1")) = some 1 := by
  decide

/-- C6 witness: on the one-edge forest `exW2`, the subtree of `E1` contains
exactly one corner-connector entry. -/
theorem c6_amended_witness :
    (render_children 4 (build_tree exW2).child_map (build_tree exW2).lookup [] "E1").map
      (fun sub => sub.countP (fun e => decide (e.pre = [] ++ glyphCorner))) = some 1 := by
  cases hE : render_children 4 (build_tree exW2).child_map (build_tree exW2).lookup [] "E1" with
  | none => exact absurd hE (by decide)
  | some sub =>
    have h := (c6_amended (build_tree exW2).child_map (build_tree exW2).lookup
      [] "E1" 3 sub hE).2.1
    simp only [Option.map_some']
    rw [h]
    decide

/-- In a duplicate-free list a present element is counted exactly once. -/
theorem countP_eq_one_of_nodup (l : List String) (hl : l.Nodup) (x : String)
    (hx : x ∈ l) : l.countP (fun y => decide (y = x)) = 1 := by
  induction l with
  | nil => simp at hx
  | cons a l ih =>
    rw [List.countP_cons]
    rcases List.mem_cons.mp hx with hxa | hxl
    · subst hxa
      have hnot : l.countP (fun y => decide (y = x)) = 0 := by
        rw [List.countP_eq_zero]
        intro b hb
        simp only [decide_eq_true_eq]
        intro hbx
        exact (List.nodup_cons.mp hl).1 (hbx ▸ hb)
      simp [hnot]
    · have hax : ¬ (a = x) := by
        intro h
        exact (List.nodup_cons.mp hl).1 (h ▸ hxl)
      rw [ih (List.nodup_cons.mp hl).2 hxl]
      simp [hax]

/-- An id that occurs in no child list is never rendered by a traversal. -/
theorem render_children_count_zero (cm : String → List String)
    (lk : String → Option Issue) (k : String) (hnot : ∀ q, k ∉ cm q)
    (fuel : Nat) (ind : List Char) (p : String) (sub : List REntry)
    (h : render_children fuel cm lk ind p = some sub) :
    sub.countP (fun e => decide (e.rid = k)) = 0 := by
  rw [List.countP_eq_zero]
  intro e he
  simp only [decide_eq_true_eq]
  intro hek
  obtain ⟨_, q, hq⟩ := render_children_emits fuel h e he
  exact hnot q (hek ▸ hq)

/-- Count transfer along the traversal: when an id `k` (present in
`lookup`) occurs exactly once in the child map, under `park`, a completed
traversal of any node `p` in `lookup` renders `k` once per rendering of
`park` (plus once for the root expansion when `p = park`). -/
theorem renderSegs_count_transfer (cm : String → List String)
    (lk : String → Option Issue) (k park : String)
    (hk : (lk k).isSome)
    (hcnt : ∀ p, (lk p).isSome →
      (cm p).countP (fun x => decide (x = k)) = if p = park then 1 else 0) :
    ∀ fuel ind p sub, render_children fuel cm lk ind p = some sub →
      (lk p).isSome →
      sub.countP (fun e => decide (e.rid = k))
        = (if p = park then 1 else 0)
          + sub.countP (fun e => decide (e.rid = park)) := by
  intro fuel
  induction fuel with
  | zero => intro ind p sub h; exact absurd h (by simp [render_children])
  | succ g ih =>
    intro ind p sub h hp
    rw [render_children_succ] at h
    have hlist : ∀ (l : List (Nat × String)) (sub2 : List REntry),
        renderSegs (renderSeg (fun c ind2 => render_children g cm lk ind2 c) lk
          ind (cm p).length) l = some sub2 →
        sub2.countP (fun e => decide (e.rid = k))
          = (l.map Prod.snd).countP (fun x => decide (x = k))
            + sub2.countP (fun e => decide (e.rid = park)) := by
      intro l
      induction l with
      | nil =>
        intro sub2 h2
        simp only [renderSegs, Option.some.injEq] at h2
        subst h2
        simp
      | cons ic rest ihl =>
        intro sub2 h2
        simp only [renderSegs] at h2
        cases hf : renderSeg (fun c ind2 => render_children g cm lk ind2 c) lk
            ind (cm p).length ic with
        | none => rw [hf] at h2; simp at h2
        | some seg =>
          cases hr : renderSegs (renderSeg
              (fun c ind2 => render_children g cm lk ind2 c) lk ind
              (cm p).length) rest with
          | none => rw [hf, hr] at h2; simp at h2
          | some tail =>
            rw [hf, hr] at h2
            simp only [Option.some.injEq] at h2
            subst h2
            have htail := ihl tail hr
            simp only [renderSeg] at hf
            cases hlk : lk ic.2 with
            | none =>
              rw [hlk] at hf
              simp only [Option.some.injEq] at hf
              subst hf
              have hisk : ¬ (ic.2 = k) := by
                intro hh
                rw [hh] at hlk
                rw [hlk] at hk
                simp at hk
              simp only [List.nil_append, List.map_cons, List.countP_cons,
                decide_eq_true_eq]
              rw [htail]
              simp [hisk]
            | some issue =>
              rw [hlk] at hf
              cases hrc : render_children g cm lk
                  (ind ++ (if ic.1 = (cm p).length - 1 then contBlank else contBar))
                  ic.2 with
              | none => rw [hrc] at hf; simp at hf
              | some rest2 =>
                rw [hrc] at hf
                simp only [Option.some.injEq] at hf
                subst hf
                have hrec := ih (ind ++ (if ic.1 = (cm p).length - 1 then contBlank
                  else contBar)) ic.2 rest2 hrc (by simp [hlk])
                simp only [List.cons_append, List.countP_cons, List.countP_append,
                  List.map_cons, decide_eq_true_eq]
                rw [htail, hrec]
                split_ifs <;> omega
    have hfin := hlist (cm p).enum sub h
    rw [List.enum_map_snd] at hfin
    rw [hfin, hcnt p hp]

/-- Board-level count of an id that occurs in no child list: only its own
top-level line can mention it. -/
theorem renderTops_count_zero (cm : String → List String)
    (lk : String → Option Issue) (k : String) (hnot : ∀ q, k ∉ cm q)
    (fuel : Nat) :
    ∀ (ts : List String) (sub : List REntry), (∀ t ∈ ts, (lk t).isSome) →
      renderTops fuel cm lk ts = some sub →
      sub.countP (fun e => decide (e.rid = k))
        = ts.countP (fun t => decide (t = k)) := by
  intro ts
  induction ts with
  | nil =>
    intro sub _ h
    simp only [renderTops, Option.some.injEq] at h
    subst h
    simp
  | cons t rest iht =>
    intro sub hsome h
    simp only [renderTops] at h
    cases hlk : lk t with
    | none => exact absurd (hsome t (List.mem_cons_self _ _)) (by simp [hlk])
    | some r =>
      rw [hlk] at h
      cases hrc : render_children fuel cm lk [] t with
      | none => rw [hrc] at h; simp at h
      | some subtree =>
        cases hrt : renderTops fuel cm lk rest with
        | none => rw [hrc, hrt] at h; simp at h
        | some tail =>
          rw [hrc, hrt] at h
          simp only [Option.some.injEq] at h
          subst h
          have hz := render_children_count_zero cm lk k hnot fuel [] t subtree hrc
          have htail := iht tail (fun x hx => hsome x (List.mem_cons_of_mem _ hx)) hrt
          simp only [List.countP_cons, List.countP_append, decide_eq_true_eq]
          rw [hz, htail]
          split_ifs <;> omega

/-- Board-level count transfer: the board renders `k` once per top-level
occurrence of `k` plus once per rendering of its unique parent. -/
theorem renderTops_count_transfer (cm : String → List String)
    (lk : String → Option Issue) (k park : String)
    (hk : (lk k).isSome)
    (hcnt : ∀ p, (lk p).isSome →
      (cm p).countP (fun x => decide (x = k)) = if p = park then 1 else 0)
    (fuel : Nat) :
    ∀ (ts : List String) (sub : List REntry), (∀ t ∈ ts, (lk t).isSome) →
      renderTops fuel cm lk ts = some sub →
      sub.countP (fun e => decide (e.rid = k))
        = ts.countP (fun t => decide (t = k))
          + sub.countP (fun e => decide (e.rid = park)) := by
  intro ts
  induction ts with
  | nil =>
    intro sub _ h
    simp only [renderTops, Option.some.injEq] at h
    subst h
    simp
  | cons t rest iht =>
    intro sub hsome h
    simp only [renderTops] at h
    cases hlk : lk t with
    | none => exact absurd (hsome t (List.mem_cons_self _ _)) (by simp [hlk])
    | some r =>
      rw [hlk] at h
      cases hrc : render_children fuel cm lk [] t with
      | none => rw [hrc] at h; simp at h
      | some subtree =>
        cases hrt : renderTops fuel cm lk rest with
        | none => rw [hrc, hrt] at h; simp at h
        | some tail =>
          rw [hrc, hrt] at h
          simp only [Option.some.injEq] at h
          subst h
          have htr := renderSegs_count_transfer cm lk k park hk hcnt fuel [] t
            subtree hrc (by simp [hlk])
          have htail := iht tail (fun x hx => hsome x (List.mem_cons_of_mem _ hx)) hrt
          simp only [List.countP_cons, List.countP_append, decide_eq_true_eq]
          rw [htr, htail]
          split_ifs <;> omega

/-- C2 (amended).  Coverage holds for forest-shaped batches: when the ids
are pairwise distinct, the merged relation is acyclic (witnessed by a rank
function decreasing along every edge), every id of `lookup` that occurs as
a child occurs exactly once across all child lists — namely under `par c` —
and that parent is itself in `lookup`, then a completed board rendering
contains exactly one entry for every id of `lookup`.  Without the
exactly-one-occurrence condition this fails even for acyclic inputs (see
the counterexample). -/
theorem c2_coverage_forest (issues : List Issue) (fuel : Nat) (out : List REntry)
    (rank : String → Nat) (par : String → String)
    (h0 : (issues.map Issue.id).Nodup)
    (h1 : ∀ p ∈ parentsList issues, ∀ c ∈ (build_tree issues).child_map p,
      rank c < rank p)
    (h2 : ∀ c ∈ issues.map Issue.id, ∀ p ∈ parentsList issues,
      c ∈ (build_tree issues).child_map p → p = par c)
    (h3 : ∀ c ∈ issues.map Issue.id, c ∈ (build_tree issues).child_ids →
      ((build_tree issues).child_map (par c)).countP (fun y => decide (y = c)) = 1)
    (h4 : ∀ c ∈ issues.map Issue.id, c ∈ (build_tree issues).child_ids →
      par c ∈ issues.map Issue.id)
    (h5 : renderBoard fuel issues = some out)
    (k : String) (hk : ((build_tree issues).lookup k).isSome) :
    out.countP (fun e => decide (e.rid = k)) = 1 := by
  have h5' : renderTops fuel (build_tree issues).child_map
      (build_tree issues).lookup (build_tree issues).top_level = some out := h5
  have htopssome : ∀ t ∈ (build_tree issues).top_level,
      ((build_tree issues).lookup t).isSome := by
    intro t ht
    exact (lookup_isSome_iff issues t).mpr ((mem_top_level_iff issues t).mp ht).1
  have htopcount : ∀ x, x ∈ issues.map Issue.id →
      x ∉ (build_tree issues).child_ids →
      (build_tree issues).top_level.countP (fun t => decide (t = x)) = 1 := by
    intro x hx hnc
    rw [(top_level_perm issues).countP_eq, List.countP_map, List.countP_filter]
    have hco : ∀ i ∈ issues,
        ((((fun t => decide (t = x)) ∘ fun i => i.id) i
          && decide (i.id ∉ (build_tree issues).child_ids)) = true
          ↔ decide (i.id = x) = true) := by
      intro i _
      simp only [Function.comp, Bool.and_eq_true, decide_eq_true_eq]
      constructor
      · intro hpair
        exact hpair.1
      · intro hone
        refine ⟨hone, ?_⟩
        rw [hone]
        exact hnc
    rw [List.countP_congr hco]
    have hmapped : issues.countP (fun i => decide (i.id = x))
        = (issues.map Issue.id).countP (fun t => decide (t = x)) := by
      rw [List.countP_map]
      rfl
    rw [hmapped]
    exact countP_eq_one_of_nodup _ h0 x hx
  have htopzero : ∀ x, x ∈ (build_tree issues).child_ids →
      (build_tree issues).top_level.countP (fun t => decide (t = x)) = 0 := by
    intro x hx
    rw [List.countP_eq_zero]
    intro t ht
    simp only [decide_eq_true_eq]
    intro htx
    exact ((mem_top_level_iff issues t).mp ht).2 (htx ▸ hx)
  have key : ∀ n, ∀ x, ((build_tree issues).lookup x).isSome →
      ((issues.map Issue.id).filter (fun j => decide (rank x < rank j))).length < n →
      out.countP (fun e => decide (e.rid = x)) = 1 := by
    intro n
    induction n with
    | zero => intro x _ hm; omega
    | succ n ihn =>
      intro x hx hm
      have hxids : x ∈ issues.map Issue.id := (lookup_isSome_iff issues x).mp hx
      by_cases hxc : x ∈ (build_tree issues).child_ids
      · have hpx : par x ∈ issues.map Issue.id := h4 x hxids hxc
        have hpxs : ((build_tree issues).lookup (par x)).isSome :=
          (lookup_isSome_iff issues (par x)).mpr hpx
        have hcnt1 := h3 x hxids hxc
        have hxmem : x ∈ (build_tree issues).child_map (par x) := by
          have hpos : 0 < ((build_tree issues).child_map (par x)).countP
              (fun y => decide (y = x)) := by omega
          obtain ⟨a, ha, hax⟩ := List.countP_pos_iff.mp hpos
          simp only [decide_eq_true_eq] at hax
          exact hax ▸ ha
        have hrank : rank x < rank (par x) :=
          h1 (par x) (List.mem_append_left _ hpx) x hxmem
        have hcnt : ∀ p, ((build_tree issues).lookup p).isSome →
            ((build_tree issues).child_map p).countP (fun y => decide (y = x))
              = if p = par x then 1 else 0 := by
          intro p hp
          by_cases hpp : p = par x
          · rw [if_pos hpp, hpp]
            exact hcnt1
          · rw [if_neg hpp, List.countP_eq_zero]
            intro a ha
            simp only [decide_eq_true_eq]
            intro hax
            subst hax
            by_cases hpl : p ∈ parentsList issues
            · exact hpp (h2 a hxids p hpl ha)
            · rw [cm_support issues p hpl] at ha
              simp at ha
        have hb := renderTops_count_transfer (build_tree issues).child_map
          (build_tree issues).lookup x (par x) hx hcnt fuel
          (build_tree issues).top_level out htopssome h5'
        have htz := htopzero x hxc
        have hmlt : ((issues.map Issue.id).filter
              (fun j => decide (rank (par x) < rank j))).length
            < ((issues.map Issue.id).filter
              (fun j => decide (rank x < rank j))).length := by
          have hsubl : ((issues.map Issue.id).filter
                (fun j => decide (rank (par x) < rank j))).Sublist
              ((issues.map Issue.id).filter (fun j => decide (rank x < rank j))) := by
            apply List.monotone_filter_right
            intro a ha
            simp only [decide_eq_true_eq] at ha ⊢
            omega
          have hle := hsubl.length_le
          by_contra hcon
          have heq : ((issues.map Issue.id).filter
                (fun j => decide (rank (par x) < rank j))).length
              = ((issues.map Issue.id).filter
                (fun j => decide (rank x < rank j))).length := by omega
          have hlisteq := (List.Sublist.length_eq hsubl).mp heq
          have hpin : par x ∈ (issues.map Issue.id).filter
              (fun j => decide (rank x < rank j)) :=
            List.mem_filter.mpr ⟨hpx, by simp only [decide_eq_true_eq]; exact hrank⟩
          rw [← hlisteq] at hpin
          have hself := (List.mem_filter.mp hpin).2
          simp only [decide_eq_true_eq] at hself
          omega
        have hout1 : out.countP (fun e => decide (e.rid = par x)) = 1 :=
          ihn (par x) hpxs (by omega)
        rw [hb, htz, hout1]
      · have hnot : ∀ q, x ∉ (build_tree issues).child_map q :=
          fun q hq => hxc (mem_cm_child_ids issues q x hq)
        have hz := renderTops_count_zero (build_tree issues).child_map
          (build_tree issues).lookup x hnot fuel
          (build_tree issues).top_level out htopssome h5'
        rw [hz]
        exact htopcount x hxids hxc
  exact key (((issues.map Issue.id).filter
    (fun j => decide (rank k < rank j))).length + 1) k hk (Nat.lt_succ_self _)

/-- C2 counterexample: in `exC2` the parent `P` lists `C` twice in
`dependents`; the merged relation is acyclic (a rank function witnesses
it), `C` is a key of `lookup`, and yet the board renders `C` twice — not
exactly once as the claim states. -/
theorem c2_cex :
    (∀ p ∈ parentsList exC2, ∀ c ∈ (build_tree exC2).child_map p,
      (if c = "P" then 1 else 0) < (if p = "P" then 1 else 0)) ∧
    ((build_tree exC2).lookup "C").isSome ∧
    (renderBoard 5 exC2).map
      (fun l => l.countP (fun e => decide (e.rid = "C"))) = some 2 := by
  decide

/-- C2 witness: on the one-edge forest `exW2` each of `E1` and `T1` is
rendered exactly once. -/
theorem c2_coverage_forest_witness :
    (renderBoard 3 exW2).map
      (fun l => l.countP (fun e => decide (e.rid = "T1"))) = some 1 ∧
    (renderBoard 3 exW2).map
      (fun l => l.countP (fun e => decide (e.rid = "E1"))) = some 1 := by
  cases hE : renderBoard 3 exW2 with
  | none => exact absurd hE (by decide)
  | some out =>
    constructor <;> simp only [Option.map_some', Option.some.injEq]
    · exact c2_coverage_forest exW2 3 out (fun s => if s = "E1" then 1 else 0)
        (fun _ => "E1") (by decide) (by decide) (by decide) (by decide) (by decide)
        hE "T1" (by decide)
    · exact c2_coverage_forest exW2 3 out (fun s => if s = "E1" then 1 else 0)
        (fun _ => "E1") (by decide) (by decide) (by decide) (by decide) (by decide)
        hE "E1" (by decide)
